import Mathlib

/-!
Shallow embedding of flaggie's record store (`lib/flaggie/packagefile.py`)
and namespace caches (`lib/flaggie/cache.py`), with theorems settling the
frozen claims about them.

Modelling conventions:
* Python strings are Lean `String`s; file contents are the list of physical
  lines exactly as Python's file iteration yields them (each including its
  trailing newline when present).
* Python object identity on `PackageEntry` objects is modelled by a numeric
  `eid` field: two entries are "the same object" exactly when their `eid`s
  coincide, and parsing assigns distinct `eid`s.
* A Python method that can raise returns an `Option` here (`none` = raise).
-/

/-- Tokenizer loop for Python `str.split()`: scan the characters, `tok`
holding the characters of the current token in reverse; whitespace ends a
token, and empty tokens are never produced. -/
def pySplitGo : List Char → List Char → List String
  | tok, [] => if tok.isEmpty then [] else [String.mk tok.reverse]
  | tok, c :: rest =>
    if c.isWhitespace then
      if tok.isEmpty then pySplitGo [] rest
      else String.mk tok.reverse :: pySplitGo [] rest
    else pySplitGo (c :: tok) rest

/-- Python `str.split()` with no arguments: split on runs of whitespace,
producing no empty pieces. -/
def pySplit (s : String) : List String := pySplitGo [] s.data

/-- Python `s[0]` for the tokens produced by `pySplit` (which are nonempty). -/
def strHead (s : String) : Char := s.data.headD 'A'

/-- One flag token with its optional leading modifier
(`PackageEntry.PackageFlag`). -/
structure PackageFlag where
  modifier : String
  name : String
deriving DecidableEq, Repr

/-- `PackageFlag.__init__`: a leading '-' or '+' becomes the modifier, the
rest the name; otherwise the modifier is empty and the whole token the name. -/
def PackageFlag.ofString (s : String) : PackageFlag :=
  match s.data with
  | c :: rest =>
    if c = '-' ∨ c = '+' then { modifier := String.mk [c], name := String.mk rest }
    else { modifier := "", name := s }
  | [] => { modifier := "", name := s }

/-- `PackageFlag.toString`. -/
def PackageFlag.toString (fl : PackageFlag) : String := fl.modifier ++ fl.name

/-- A structured line (`PackageEntry`): the raw text, the package expression,
the parsed flags, the dirty bit, and the Python object identity `eid`. -/
structure PackageEntry where
  as_str : String
  package : String
  flags : List PackageFlag
  modified : Bool
  eid : Nat
deriving DecidableEq, Repr

/-- A line of a package file: either passthrough whitespace or a parsed
package entry (the `Whitespace` and `PackageEntry` classes). -/
inductive Line where
  | ws (data : String)
  | entry (e : PackageEntry)
deriving DecidableEq, Repr

/-- The `modified` attribute of a line: `Whitespace.modified` is always
false, an entry reports its own dirty bit. -/
def Line.modified : Line → Bool
  | .ws _ => false
  | .entry e => e.modified

/-- Python truthiness of a line: `Whitespace.__nonzero__` is True, an entry
is truthy iff `PackageEntry.__len__` (the number of flags) is nonzero. -/
def Line.nonzero : Line → Bool
  | .ws _ => true
  | .entry e => !e.flags.isEmpty

/-- `toString` of a line: whitespace is returned verbatim; an unmodified
entry returns its raw text `as_str`; a modified entry re-serializes as the
package expression and the flags, space-joined, plus a newline. -/
def Line.toString : Line → String
  | .ws d => d
  | .entry e =>
    if e.modified then
      String.intercalate " " (e.package :: e.flags.map PackageFlag.toString) ++ "\n"
    else e.as_str

/-- Python `sl[0].startswith(hash)` for the single-character comment marker. -/
def startsWithHash (s : String) : Bool :=
  match s.data with
  | c :: _ => c == '#'
  | [] => false

/-- Parsing of one physical line (`PackageEntry.__init__` with the
`InvalidPackageEntry` fallback to `Whitespace` in `PackageFile.__init__`):
an empty split or a leading comment token yields a passthrough line,
otherwise the first token is the package and the rest become flags. -/
def parseLine (eid : Nat) (l : String) : Line :=
  match pySplit l with
  | [] => .ws l
  | p :: rest =>
    if startsWithHash p then .ws l
    else .entry { as_str := l, package := p, flags := rest.map PackageFlag.ofString,
                  modified := false, eid := eid }

/-- One physical file (`PackageFileSet.PackageFile`): its path, the
file-level dirty bit `_modified`, and the ordered lines. -/
structure PackageFile where
  path : String
  _modified : Bool
  lines : List Line
deriving DecidableEq, Repr

/-- The `modified` property of a file: the explicit `_modified` bit or any
dirty line. -/
def PackageFile.modified (f : PackageFile) : Bool :=
  f._modified || f.lines.any Line.modified

/-- The filter `PackageFile.write` applies to each line:
`if not l.modified or l` — keep a line when it is clean or truthy. -/
def keepLine (l : Line) : Bool := !l.modified || l.nonzero

/-- Sequential concatenation of the strings written by successive
`f.write(...)` calls. -/
def concatStrings : List String → String
  | [] => ""
  | s :: rest => s ++ concatStrings rest

/-- The bytes `PackageFile.write` produces once it decides to write: each
kept line's `toString`, concatenated. -/
def PackageFile.contentIfWritten (f : PackageFile) : String :=
  concatStrings ((f.lines.filter keepLine).map Line.toString)

/-- `PackageFile.write`: no file-system write at all when the file is not
modified, otherwise the filtered serialization. -/
def PackageFile.writeOutput (f : PackageFile) : Option String :=
  if f.modified then some f.contentIfWritten else none

/-- Parse the physical lines of a file, assigning fresh object identities. -/
def parseLines : Nat → List String → List Line
  | _, [] => []
  | i, l :: ls => parseLine i l :: parseLines (i + 1) ls

/-- `PackageFile.__init__` on an existing file with physical lines `ls`. -/
def PackageFile.load (path : String) (ls : List String) : PackageFile :=
  { path := path, _modified := false, lines := parseLines 0 ls }

/-- The `modified` property setter used to force a file dirty
(`f.modified = True`). -/
def markDirty (f : PackageFile) : PackageFile := { f with _modified := true }

/-- The loaded file collection (`PackageFileSet`); `files = []` models a set
whose files have not been loaded (or were dropped by `write`). -/
structure PackageFileSet where
  files : List PackageFile
deriving DecidableEq, Repr

/-- `PackageFileSet.write` on a loaded set writes every file in order; this
returns the per-file results (path, bytes-written-or-none). -/
def PackageFileSet.writeOutputs (s : PackageFileSet) : List (String × Option String) :=
  s.files.map fun f => (f.path, f.writeOutput)

lemma toString_parseLine (i : Nat) (l : String) : (parseLine i l).toString = l := by
  unfold parseLine
  cases pySplit l with
  | nil => rfl
  | cons p rest =>
    by_cases h : startsWithHash p = true
    · simp [h, Line.toString]
    · simp [h, Line.toString]

lemma modified_parseLine (i : Nat) (l : String) : (parseLine i l).modified = false := by
  unfold parseLine
  cases pySplit l with
  | nil => rfl
  | cons p rest =>
    by_cases h : startsWithHash p = true
    · simp [h, Line.modified]
    · simp [h, Line.modified]

lemma content_parseLines (ls : List String) :
    ∀ i, concatStrings (((parseLines i ls).filter keepLine).map Line.toString)
      = concatStrings ls := by
  induction ls with
  | nil => intro i; rfl
  | cons l ls ih =>
    intro i
    have hk : keepLine (parseLine i l) = true := by
      simp [keepLine, modified_parseLine]
    simp only [parseLines, List.filter_cons, hk, if_pos, List.map_cons, concatStrings,
      toString_parseLine, ih]

/-- C1: if a record's dirty flag is false, serializing it returns its raw
text `as_str` byte for byte; consequently loading a file, making no edits,
and forcing a write (setting the file dirty) writes back exactly the
concatenation of the original physical lines. -/
theorem roundtrip_write_preserves_bytes :
    (∀ e : PackageEntry, e.modified = false → Line.toString (Line.entry e) = e.as_str) ∧
    (∀ (path : String) (ls : List String),
      (markDirty (PackageFile.load path ls)).writeOutput = some (concatStrings ls)) := by
  constructor
  · intro e he
    simp [Line.toString, he]
  · intro path ls
    have hm : (markDirty (PackageFile.load path ls)).modified = true := by
      simp [markDirty, PackageFile.modified]
    simp only [PackageFile.writeOutput, hm, if_pos]
    simp only [PackageFile.contentIfWritten, markDirty, PackageFile.load]
    exact congrArg some (content_parseLines ls 0)

/-- A concrete clean record used by witnesses. -/
def wEntry : PackageEntry :=
  { as_str := "cat/pkg a\n", package := "cat/pkg",
    flags := [{ modifier := "", name := "a" }], modified := false, eid := 0 }

/-- Witness for C1 at a concrete record and a concrete two-line file. -/
theorem roundtrip_write_preserves_bytes_witness :
    Line.toString (Line.entry wEntry) = "cat/pkg a\n" ∧
    (markDirty (PackageFile.load "package.use" ["cat/pkg a\n", "# note\n"])).writeOutput
      = some "cat/pkg a\n# note\n" :=
  ⟨roundtrip_write_preserves_bytes.1 wEntry rfl,
   (roundtrip_write_preserves_bytes.2 "package.use" ["cat/pkg a\n", "# note\n"]).trans (by decide)⟩

/-- C5: a file-level write is a no-op when the file's dirty flag is false,
the store-level write is a no-op when no files have been loaded, and a
store all of whose files are clean performs zero file-system writes. -/
theorem write_noop_when_clean :
    (∀ f : PackageFile, PackageFile.modified f = false → f.writeOutput = none) ∧
    (∀ s : PackageFileSet, s.files = [] → s.writeOutputs = []) ∧
    (∀ s : PackageFileSet, (∀ f ∈ s.files, PackageFile.modified f = false) →
      ∀ pr ∈ s.writeOutputs, pr.2 = none) := by
  refine ⟨?_, ?_, ?_⟩
  · intro f hf
    simp [PackageFile.writeOutput, hf]
  · intro s hs
    simp [PackageFileSet.writeOutputs, hs]
  · intro s hs pr hpr
    simp only [PackageFileSet.writeOutputs, List.mem_map] at hpr
    obtain ⟨f, hf, rfl⟩ := hpr
    simp [PackageFile.writeOutput, hs f hf]

/-- A concrete freshly loaded (clean) one-line file used by witnesses. -/
def wCleanFile : PackageFile := PackageFile.load "package.use" ["cat/pkg a\n"]

/-- Witness for C5 on a concrete clean file and concrete stores. -/
theorem write_noop_when_clean_witness :
    wCleanFile.writeOutput = none ∧
    PackageFileSet.writeOutputs ⟨[]⟩ = [] ∧
    ∀ pr ∈ PackageFileSet.writeOutputs ⟨[wCleanFile]⟩, pr.2 = none :=
  ⟨write_noop_when_clean.1 wCleanFile (by decide),
   write_noop_when_clean.2.1 ⟨[]⟩ rfl,
   write_noop_when_clean.2.2 ⟨[wCleanFile]⟩ (by decide)⟩

lemma concatStrings_append (a b : List String) :
    concatStrings (a ++ b) = concatStrings a ++ concatStrings b := by
  induction a with
  | nil => simp [concatStrings]
  | cons s rest ih => simp [concatStrings, ih, String.append_assoc]

lemma contentIfWritten_append (path : String) (m : Bool) (a b : List Line) :
    PackageFile.contentIfWritten ⟨path, m, a ++ b⟩ =
      PackageFile.contentIfWritten ⟨path, m, a⟩ ++ PackageFile.contentIfWritten ⟨path, m, b⟩ := by
  simp only [PackageFile.contentIfWritten, List.filter_append, List.map_append,
    concatStrings_append]

/-- C9: in the bytes produced by a file write, a dirty record whose flag
list is empty is omitted entirely, while a clean record with an empty flag
list is still written verbatim as its raw text. -/
theorem write_omits_dirty_empty_records :
    ∀ (path : String) (m : Bool) (pre post : List Line) (e : PackageEntry),
    (e.modified = true → e.flags = [] →
      PackageFile.contentIfWritten ⟨path, m, pre ++ Line.entry e :: post⟩ =
        PackageFile.contentIfWritten ⟨path, m, pre ++ post⟩) ∧
    (e.modified = false →
      PackageFile.contentIfWritten ⟨path, m, pre ++ Line.entry e :: post⟩ =
        PackageFile.contentIfWritten ⟨path, m, pre⟩ ++ e.as_str ++
          PackageFile.contentIfWritten ⟨path, m, post⟩) := by
  intro path m pre post e
  constructor
  · intro hm hfl
    have hdrop : keepLine (Line.entry e) = false := by
      simp [keepLine, Line.modified, Line.nonzero, hm, hfl]
    rw [contentIfWritten_append, contentIfWritten_append]
    have : PackageFile.contentIfWritten ⟨path, m, Line.entry e :: post⟩ =
        PackageFile.contentIfWritten ⟨path, m, post⟩ := by
      simp only [PackageFile.contentIfWritten, List.filter_cons, hdrop]
      simp
    rw [this]
  · intro hm
    have hkeep : keepLine (Line.entry e) = true := by
      simp [keepLine, Line.modified, hm]
    rw [contentIfWritten_append]
    have : PackageFile.contentIfWritten ⟨path, m, Line.entry e :: post⟩ =
        e.as_str ++ PackageFile.contentIfWritten ⟨path, m, post⟩ := by
      simp only [PackageFile.contentIfWritten, List.filter_cons, hkeep]
      simp only [if_pos, List.map_cons, concatStrings]
      rw [show Line.toString (Line.entry e) = e.as_str by simp [Line.toString, hm]]
    rw [this, String.append_assoc]

/-- A concrete dirty record with an empty flag list, used by witnesses. -/
def wDirtyEmpty : PackageEntry :=
  { as_str := "cat/pkg a\n", package := "cat/pkg", flags := [], modified := true, eid := 7 }

/-- A concrete clean record with an empty flag list, used by witnesses. -/
def wCleanEmpty : PackageEntry :=
  { as_str := "cat/pkg\n", package := "cat/pkg", flags := [], modified := false, eid := 8 }

/-- Witness for C9: the dirty empty record vanishes from the output, the
clean empty record is written verbatim. -/
theorem write_omits_dirty_empty_records_witness :
    PackageFile.contentIfWritten ⟨"p", true, [Line.ws "# a\n", Line.entry wDirtyEmpty]⟩ =
      PackageFile.contentIfWritten ⟨"p", true, [Line.ws "# a\n"]⟩ ∧
    PackageFile.contentIfWritten ⟨"p", true, [Line.ws "# a\n", Line.entry wCleanEmpty]⟩ =
      PackageFile.contentIfWritten ⟨"p", true, [Line.ws "# a\n"]⟩ ++ "cat/pkg\n" ++
        PackageFile.contentIfWritten ⟨"p", true, ([] : List Line)⟩ :=
  ⟨(write_omits_dirty_empty_records "p" true [Line.ws "# a\n"] [] wDirtyEmpty).1 rfl rfl,
   (write_omits_dirty_empty_records "p" true [Line.ws "# a\n"] [] wCleanEmpty).2 rfl⟩

/-- Extractor used by `PackageFileSet.__iter__`: keep a line only if it is a
`PackageEntry` instance. -/
def Line.asEntry : Line → Option PackageEntry
  | .ws _ => none
  | .entry e => some e

/-- The package entries of one file in declaration (file) order. -/
def PackageFile.entriesFwd (f : PackageFile) : List PackageEntry :=
  f.lines.filterMap Line.asEntry

/-- `PackageFileSet.__iter__`: files in reverse load order, records within
each file in reverse declaration order, passthrough lines skipped. -/
def PackageFileSet.iterEntries (s : PackageFileSet) : List PackageEntry :=
  s.files.reverse.flatMap fun f => f.lines.reverse.filterMap Line.asEntry

/-- `PackageFileSet.__getitem__`: the entries whose package expression
equals `pkg`, in the order `__iter__` yields them. -/
def PackageFileSet.getEntries (s : PackageFileSet) (pkg : String) : List PackageEntry :=
  s.iterEntries.filter fun e => e.package == pkg

/-- All package entries of the store in declaration order: files in load
order and, within each file, records in the order they appear. -/
def PackageFileSet.declOrder (s : PackageFileSet) : List PackageEntry :=
  s.files.flatMap PackageFile.entriesFwd

/-- C3: iterating a store's entries yields exactly the reverse of the
declaration order, and the entries for a package expression are the reverse
of the matching records in declaration order, so of two records for the
same package expression in sequence the later one is yielded first. -/
theorem entries_yield_reverse_declaration_order :
    ∀ (s : PackageFileSet) (pkg : String),
      s.iterEntries = s.declOrder.reverse ∧
      s.getEntries pkg = (s.declOrder.filter fun e => e.package == pkg).reverse := by
  intro s pkg
  have hiter : s.iterEntries = s.declOrder.reverse := by
    simp only [PackageFileSet.iterEntries, PackageFileSet.declOrder, List.reverse_flatMap]
    refine List.flatMap_congr ?_
    intro f _
    simp [PackageFile.entriesFwd, Function.comp, List.filterMap_reverse]
  refine ⟨hiter, ?_⟩
  simp only [PackageFileSet.getEntries, hiter, List.filter_reverse]

/-- The ordering `PackageEntry.__lt__` induces for Python's stable
`list.sort`: compare package expressions only. -/
def pkgLE (a b : PackageEntry) : Prop := a.package ≤ b.package

instance : DecidableRel pkgLE := fun a b =>
  inferInstanceAs (Decidable (a.package ≤ b.package))

instance : IsTotal PackageEntry pkgLE := ⟨fun a b => le_total a.package b.package⟩

instance : IsTrans PackageEntry pkgLE := ⟨fun _ _ _ h h2 => le_trans h h2⟩

/-- `PackageFile.sort`: drop every whitespace line, stably sort the
remaining entries by package expression (Python's `list.sort` over
`__lt__`), and set the file-level dirty bit. -/
def PackageFile.sort (f : PackageFile) : PackageFile :=
  { f with lines := (List.insertionSort pkgLE f.entriesFwd).map Line.entry,
           _modified := true }

/-- `PackageFileSet.sort`: sort every loaded file. -/
def PackageFileSet.sort (s : PackageFileSet) : PackageFileSet :=
  ⟨s.files.map PackageFile.sort⟩

/-- Whether a line is a passthrough (whitespace) line. -/
def Line.isWs : Line → Bool
  | .ws _ => true
  | .entry _ => false

lemma entriesFwd_map_entry (l : List PackageEntry) :
    List.filterMap Line.asEntry (l.map Line.entry) = l := by
  induction l with
  | nil => rfl
  | cons e l ih => simp [List.filterMap_cons, Line.asEntry, ih]

lemma filter_orderedInsert_pkg (q : String) (a : PackageEntry) (l : List PackageEntry) :
    (List.orderedInsert pkgLE a l).filter (fun e => e.package == q) =
      if a.package = q then a :: l.filter (fun e => e.package == q)
      else l.filter (fun e => e.package == q) := by
  induction l with
  | nil =>
    by_cases haq : a.package = q
    · simp [List.orderedInsert, List.filter_cons, haq]
    · simp [List.orderedInsert, List.filter_cons, haq]
  | cons b l ih =>
    by_cases hle : pkgLE a b
    · by_cases haq : a.package = q
      · simp [List.orderedInsert, hle, List.filter_cons, haq]
      · simp [List.orderedInsert, hle, List.filter_cons, haq]
    · have hblt : b.package < a.package := not_le.mp hle
      by_cases haq : a.package = q
      · have hbq : b.package ≠ q := by
          intro h
          rw [h, haq] at hblt
          exact lt_irrefl _ hblt
        simp [List.orderedInsert, hle, List.filter_cons, hbq, haq, ih]
      · simp only [List.orderedInsert, if_neg hle, List.filter_cons, ih, if_neg haq]

lemma filter_insertionSort_pkg (q : String) (l : List PackageEntry) :
    (List.insertionSort pkgLE l).filter (fun e => e.package == q) =
      l.filter (fun e => e.package == q) := by
  induction l with
  | nil => rfl
  | cons a l ih =>
    simp only [List.insertionSort]
    rw [filter_orderedInsert_pkg]
    by_cases haq : a.package = q
    · simp [haq, List.filter_cons, ih]
    · simp [haq, List.filter_cons, ih]

/-- C8: sorting a store sorts every loaded file; per file, the result
contains no passthrough lines, its entries are a permutation of the
original entries sorted by package expression (and by that alone), records
sharing a package expression keep their relative declaration order, and the
file is marked dirty. -/
theorem sort_discards_passthrough_stable_by_package :
    ∀ (s : PackageFileSet) (f : PackageFile) (q : String),
      (s.sort.files = s.files.map PackageFile.sort) ∧
      f.sort.lines.all (fun l => !l.isWs) = true ∧
      f.sort.entriesFwd.Perm f.entriesFwd ∧
      List.Sorted pkgLE f.sort.entriesFwd ∧
      (f.sort.entriesFwd.filter (fun e => e.package == q) =
        f.entriesFwd.filter (fun e => e.package == q)) ∧
      f.sort.modified = true := by
  intro s f q
  have hlines : f.sort.entriesFwd = List.insertionSort pkgLE f.entriesFwd := by
    simp only [PackageFile.sort, PackageFile.entriesFwd, entriesFwd_map_entry]
  refine ⟨rfl, ?_, ?_, ?_, ?_, ?_⟩
  · simp only [PackageFile.sort, List.all_eq_true]
    intro l hl
    simp only [List.mem_map] at hl
    obtain ⟨e, _, rfl⟩ := hl
    rfl
  · rw [hlines]; exact List.perm_insertionSort pkgLE f.entriesFwd
  · rw [hlines]; exact List.sorted_insertionSort pkgLE f.entriesFwd
  · rw [hlines]; exact filter_insertionSort_pkg q f.entriesFwd
  · simp [PackageFile.sort, PackageFile.modified]

/-- Python object identity test used by `list.remove` on a file's lines:
a `PackageEntry` argument (which defines no custom equality) is equal only
to the very same object, never to a `Whitespace` line. -/
def Line.isSame (e : PackageEntry) : Line → Bool
  | .ws _ => false
  | .entry e2 => e2.eid == e.eid

/-- `list.remove(e)` on a file's line list: drop the first occurrence of
the object `e`, or fail (ValueError) when it occurs nowhere. -/
def removeFirst (e : PackageEntry) : List Line → Option (List Line)
  | [] => none
  | l :: ls =>
    if Line.isSame e l then some ls
    else (removeFirst e ls).map (fun r => l :: r)

/-- One file's part of `PackageFileSet.remove`: try `f.remove(pkg)`; on
success mark the file dirty and report the match, on ValueError keep the
file untouched. -/
def removeFromFile (e : PackageEntry) (f : PackageFile) : Bool × PackageFile :=
  match removeFirst e f.lines with
  | some ls => (true, { f with lines := ls, _modified := true })
  | none => (false, f)

/-- `PackageFileSet.remove`: attempt the removal in every file; raise
ValueError (`none`) when no file contained the record. -/
def PackageFileSet.remove (s : PackageFileSet) (e : PackageEntry) : Option PackageFileSet :=
  let res := s.files.map (removeFromFile e)
  if res.any Prod.fst then some ⟨res.map Prod.snd⟩ else none

/-- Replace the last element of a list in place (`self.files[-1]`). -/
def updateLast (g : PackageFile → PackageFile) : List PackageFile → List PackageFile
  | [] => []
  | [f] => [g f]
  | f :: rest => f :: updateLast g rest

/-- The file-level effect of `PackageFileSet.append`: mark the record dirty
and append it to the file's line list. -/
def appendEntry (e : PackageEntry) (f : PackageFile) : PackageFile :=
  { f with lines := f.lines ++ [Line.entry { e with modified := true }] }

/-- `PackageFileSet.append` on a loaded store: the record goes to the last
file. -/
def PackageFileSet.append (s : PackageFileSet) (e : PackageEntry) : PackageFileSet :=
  ⟨updateLast (appendEntry e) s.files⟩

/-- No line of any loaded file is the object `e`. -/
abbrev PackageFileSet.freshFor (s : PackageFileSet) (e : PackageEntry) : Prop :=
  ∀ f ∈ s.files, ∀ l ∈ f.lines, Line.isSame e l = false

lemma removeFirst_of_clean (e : PackageEntry) (ls : List Line)
    (h : ∀ l ∈ ls, Line.isSame e l = false) : removeFirst e ls = none := by
  induction ls with
  | nil => rfl
  | cons l ls ih =>
    have hl : Line.isSame e l = false := h l (List.mem_cons_self l ls)
    simp only [removeFirst, hl, Bool.false_eq_true, if_neg, not_false_eq_true,
      ih (fun x hx => h x (List.mem_cons_of_mem l hx)), Option.map_none']

lemma remove_of_fresh (s : PackageFileSet) (e : PackageEntry)
    (h : s.freshFor e) : s.remove e = none := by
  unfold PackageFileSet.remove
  have hres : ∀ f ∈ s.files, removeFromFile e f = (false, f) := by
    intro f hf
    unfold removeFromFile
    rw [removeFirst_of_clean e f.lines (h f hf)]
  have hany : (s.files.map (removeFromFile e)).any Prod.fst = false := by
    rw [List.any_eq_false]
    intro p hp
    simp only [List.mem_map] at hp
    obtain ⟨f, hf, rfl⟩ := hp
    rw [hres f hf]
    exact Bool.false_ne_true
  simp only [hany, Bool.false_eq_true, if_neg, not_false_eq_true]

lemma removeFirst_clean_append (e : PackageEntry) (ls : List Line)
    (h : ∀ l ∈ ls, Line.isSame e l = false) :
    removeFirst e (ls ++ [Line.entry { e with modified := true }]) = some ls := by
  induction ls with
  | nil => simp [removeFirst, Line.isSame]
  | cons l ls ih =>
    have hl : Line.isSame e l = false := h l (List.mem_cons_self l ls)
    have ih2 := ih (fun x hx => h x (List.mem_cons_of_mem l hx))
    simp [List.cons_append, removeFirst, hl, ih2]

lemma remove_append_eq (e : PackageEntry) :
    ∀ (fs : List PackageFile), fs ≠ [] →
      (∀ f ∈ fs, ∀ l ∈ f.lines, Line.isSame e l = false) →
      PackageFileSet.remove ⟨updateLast (appendEntry e) fs⟩ e =
        some ⟨updateLast markDirty fs⟩ := by
  intro fs
  induction fs with
  | nil => intro h; exact absurd rfl h
  | cons f rest ih =>
    intro _ hclean
    cases rest with
    | nil =>
      have hf : ∀ l ∈ f.lines, Line.isSame e l = false :=
        hclean f (List.mem_cons_self f [])
      simp only [updateLast, PackageFileSet.remove, List.map_cons, List.map_nil,
        removeFromFile, appendEntry, removeFirst_clean_append e f.lines hf,
        List.any_cons, List.any_nil, Bool.or_false, if_pos, markDirty]
    | cons f2 rest2 =>
      have hf : ∀ l ∈ f.lines, Line.isSame e l = false :=
        hclean f (List.mem_cons_self f (f2 :: rest2))
      have hrest : ∀ g ∈ f2 :: rest2, ∀ l ∈ g.lines, Line.isSame e l = false :=
        fun g hg => hclean g (List.mem_cons_of_mem f hg)
      have ihr := ih (by simp) hrest
      simp only [PackageFileSet.remove] at ihr ⊢
      have hup : updateLast (appendEntry e) (f :: f2 :: rest2) =
          f :: updateLast (appendEntry e) (f2 :: rest2) := rfl
      rw [hup]
      simp only [List.map_cons, List.any_cons]
      have hff : removeFromFile e f = (false, f) := by
        unfold removeFromFile
        rw [removeFirst_of_clean e f.lines hf]
      rw [hff]
      simp only [Bool.false_or]
      by_cases hany : ((updateLast (appendEntry e) (f2 :: rest2)).map
          (removeFromFile e)).any Prod.fst = true
      · rw [if_pos hany] at ihr
        rw [if_pos hany]
        have hmaps : ((updateLast (appendEntry e) (f2 :: rest2)).map
            (removeFromFile e)).map Prod.snd = updateLast markDirty (f2 :: rest2) := by
          have hinj := Option.some.inj ihr
          exact congrArg PackageFileSet.files hinj
        rw [hmaps]
        rfl
      · rw [if_neg hany] at ihr
        exact absurd ihr (by simp)

lemma markDirty_keeps_lines (fs : List PackageFile) :
    ∀ f ∈ updateLast markDirty fs, ∃ g ∈ fs, f.lines = g.lines := by
  induction fs with
  | nil => intro f hf; exact absurd hf (by simp [updateLast])
  | cons g rest ih =>
    cases rest with
    | nil =>
      intro f hf
      simp only [updateLast, List.mem_singleton] at hf
      exact ⟨g, List.mem_cons_self g [], by rw [hf]; rfl⟩
    | cons g2 rest2 =>
      intro f hf
      have hup : updateLast markDirty (g :: g2 :: rest2) =
          g :: updateLast markDirty (g2 :: rest2) := rfl
      rw [hup] at hf
      rcases List.mem_cons.mp hf with h | h
      · exact ⟨g, List.mem_cons_self g (g2 :: rest2), by rw [h]⟩
      · obtain ⟨g3, hg3, hl⟩ := ih f h
        exact ⟨g3, List.mem_cons_of_mem g hg3, hl⟩

/-- A second record object for the same package expression as `wEntry`. -/
def cexE1 : PackageEntry :=
  { as_str := "cat/pkg b\n", package := "cat/pkg",
    flags := [{ modifier := "", name := "b" }], modified := false, eid := 1 }

/-- A loaded store whose single file holds two records for cat/pkg. -/
def cexStore : PackageFileSet :=
  ⟨[{ path := "package.use", _modified := false,
      lines := [Line.entry wEntry, Line.entry cexE1] }]⟩

/-- Counterexample to C2 as stated: the store-level remove succeeds on a
record of package cat/pkg, yet afterwards a record whose package expression
equals cat/pkg is still present — `remove` compares by object identity and
does not delete every record with an equal package expression. -/
theorem remove_not_by_package_expression :
    (cexStore.remove wEntry).isSome = true ∧
    ((cexStore.remove wEntry).getD ⟨[]⟩).files.any
      (fun f => f.lines.any fun l =>
        (Line.asEntry l).any fun e2 => e2.package == "cat/pkg") = true := by
  decide

/-- C2 amended: `remove` takes a record object and removes it by identity.
On a loaded store none of whose lines already is that object, appending the
record and then removing it succeeds, leaving the files' lines as before
with the last file marked dirty; removing it once more — and in general
removing any record object no loaded file contains — raises ValueError
(NotFound, modelled as `none`). -/
theorem remove_by_identity_append_then_remove
    (s : PackageFileSet) (e : PackageEntry)
    (hne : s.files ≠ []) (hfresh : s.freshFor e) :
    (∀ t : PackageFileSet, t.freshFor e → t.remove e = none) ∧
    (s.append e).remove e = some ⟨updateLast markDirty s.files⟩ ∧
    PackageFileSet.remove ⟨updateLast markDirty s.files⟩ e = none := by
  refine ⟨fun t ht => remove_of_fresh t e ht, ?_, ?_⟩
  · exact remove_append_eq e s.files hne hfresh
  · apply remove_of_fresh
    intro f hf l hl
    obtain ⟨g, hg, hlines⟩ := markDirty_keeps_lines s.files f hf
    exact hfresh g hg l (hlines ▸ hl)

/-- A loaded store with one comment-only file, used by witnesses. -/
def wStore : PackageFileSet :=
  ⟨[{ path := "package.use", _modified := false, lines := [Line.ws "# c\n"] }]⟩

/-- Witness for the amended C2 on a concrete store: append then remove
succeeds, a second remove raises. -/
theorem remove_by_identity_append_then_remove_witness :
    (wStore.append wEntry).remove wEntry = some ⟨updateLast markDirty wStore.files⟩ ∧
    PackageFileSet.remove ⟨updateLast markDirty wStore.files⟩ wEntry = none :=
  ⟨(remove_by_identity_append_then_remove wStore wEntry (by decide) (by decide)).2.1,
   (remove_by_identity_append_then_remove wStore wEntry (by decide) (by decide)).2.2⟩

/-- The keep-predicate of `PackageFileSet.__delitem__`: a line survives iff
it is not an entry whose package expression equals `pkg`. -/
def keepNotPkg (pkg : String) : Line → Bool
  | .ws _ => true
  | .entry e => !(e.package == pkg)

/-- The successful per-file effect of `PackageFileSet.__delitem__`: drop
every entry whose package expression equals `pkg` and mark the file dirty
unconditionally. -/
def delPkgOk (pkg : String) (f : PackageFile) : PackageFile :=
  { f with lines := f.lines.filter (keepNotPkg pkg), _modified := true }

/-- `PackageFileSet.__delitem__` on one file: the scan `for e in f` reads
`e.package` on every line, so it raises AttributeError (`none`) whenever
the file holds a passthrough line; otherwise it removes the matching
entries and marks the file dirty even when nothing matched. -/
def PackageFile.delPkg (pkg : String) (f : PackageFile) : Option PackageFile :=
  if f.lines.any Line.isWs then none else some (delPkgOk pkg f)

/-- `__delitem__` across the loaded files, in order; the first
AttributeError aborts the operation. -/
def delItemFiles (pkg : String) : List PackageFile → Option (List PackageFile)
  | [] => some []
  | f :: fs =>
    match PackageFile.delPkg pkg f with
    | none => none
    | some f2 => (delItemFiles pkg fs).map (fun rest => f2 :: rest)

/-- `PackageFileSet.__delitem__`. -/
def PackageFileSet.delItem (s : PackageFileSet) (pkg : String) : Option PackageFileSet :=
  (delItemFiles pkg s.files).map PackageFileSet.mk

/-- Counterexample to C10 as stated: on a loaded store whose file consists
of a single comment line — so no record matches any package — the
delete-all operation does not return normally but raises (AttributeError,
from reading `package` on a passthrough line). -/
theorem delitem_raises_on_passthrough :
    wStore.delItem "cat/pkg" = none := by decide

lemma delItemFiles_of_no_ws (pkg : String) (fs : List PackageFile)
    (h : ∀ f ∈ fs, f.lines.any Line.isWs = false) :
    delItemFiles pkg fs = some (fs.map (delPkgOk pkg)) := by
  induction fs with
  | nil => rfl
  | cons f fs ih =>
    have hf : f.lines.any Line.isWs = false := h f (List.mem_cons_self f fs)
    have ih2 := ih (fun g hg => h g (List.mem_cons_of_mem f hg))
    simp [delItemFiles, PackageFile.delPkg, hf, ih2]

/-- C10 amended: provided every line of every loaded file is a package
record (no passthrough lines), the delete-all-records operation raises no
error even when no record matched, marks every loaded file dirty
unconditionally, and afterwards no file holds a record for the package. -/
theorem delitem_marks_all_dirty_when_no_passthrough
    (s : PackageFileSet) (pkg : String)
    (h : ∀ f ∈ s.files, f.lines.any Line.isWs = false) :
    s.delItem pkg = some ⟨s.files.map (delPkgOk pkg)⟩ ∧
    (∀ f ∈ s.files, (delPkgOk pkg f)._modified = true) ∧
    (∀ f ∈ s.files, ∀ l ∈ (delPkgOk pkg f).lines, ∀ e, l = Line.entry e → e.package ≠ pkg) := by
  refine ⟨?_, ?_, ?_⟩
  · simp [PackageFileSet.delItem, delItemFiles_of_no_ws pkg s.files h]
  · intro f _
    rfl
  · intro f _ l hl e hle hpe
    simp only [delPkgOk, List.mem_filter] at hl
    rw [hle] at hl
    have := hl.2
    simp [keepNotPkg, hpe] at this

/-- Witness for the amended C10 on a store whose file holds two cat/pkg
records and no passthrough line: the operation succeeds and dirties the
file. -/
theorem delitem_marks_all_dirty_when_no_passthrough_witness :
    cexStore.delItem "cat/pkg" = some ⟨cexStore.files.map (delPkgOk "cat/pkg")⟩ ∧
    ∀ f ∈ cexStore.files, (delPkgOk "cat/pkg" f)._modified = true :=
  ⟨(delitem_marks_all_dirty_when_no_passthrough cexStore "cat/pkg" (by decide)).1,
   (delitem_marks_all_dirty_when_no_passthrough cexStore "cat/pkg" (by decide)).2.1⟩

/-- `self._defkw` from `PackageKeywordsFileSet.__init__`: a '~'-prefixed
variant of each ACCEPT_KEYWORDS token whose first character is neither '~'
nor '-'. -/
def defaultKeywords (acceptKeywords : String) : List String :=
  ((pySplit acceptKeywords).filter
    (fun x => !(strHead x == '~') && !(strHead x == '-'))).map (fun x => "~" ++ x)

/-- The same defaults as parsed flags: each carries no modifier ('~' is not
a flag modifier) and a '~'-prefixed name. -/
def defaultKeywordFlags (acceptKeywords : String) : List PackageFlag :=
  ((pySplit acceptKeywords).filter
    (fun x => !(strHead x == '~') && !(strHead x == '-'))).map
      (fun x => { modifier := "", name := "~" ++ x })

/-- The default-injection step of `PackageKeywordsFileSet.read`: a record
with zero flags gets every default appended (each append marks it dirty)
and its dirty bit is then reset to false; every other line is untouched. -/
def injectDefaults (defkw : List String) : Line → Line
  | .ws d => .ws d
  | .entry e =>
    if e.flags.isEmpty then
      .entry { e with flags := defkw.map PackageFlag.ofString, modified := false }
    else .entry e

/-- Default injection over one file's lines. -/
def injectFile (defkw : List String) (f : PackageFile) : PackageFile :=
  { f with lines := f.lines.map (injectDefaults defkw) }

/-- `PackageKeywordsFileSet.read`: the base load followed by default
injection into every flagless record of every file. -/
def PackageKeywordsFileSet.read (acceptKeywords : String) (s : PackageFileSet) :
    PackageFileSet :=
  ⟨s.files.map (injectFile (defaultKeywords acceptKeywords))⟩

lemma data_tilde_append (x : String) : (("~" : String) ++ x).data = '~' :: x.data := by
  cases x
  rfl

lemma ofString_tilde (x : String) :
    PackageFlag.ofString ("~" ++ x) = { modifier := "", name := "~" ++ x } := by
  unfold PackageFlag.ofString
  rw [data_tilde_append]
  have h : ¬('~' = '-' ∨ '~' = '+') := by decide
  simp [h]

lemma map_ofString_defaultKeywords (ak : String) :
    (defaultKeywords ak).map PackageFlag.ofString = defaultKeywordFlags ak := by
  unfold defaultKeywords defaultKeywordFlags
  rw [List.map_map]
  exact List.map_congr_left (fun x _ => ofString_tilde x)

lemma modified_injectDefaults (dk : List String) (l : Line)
    (h : Line.modified l = false) : Line.modified (injectDefaults dk l) = false := by
  cases l with
  | ws d => rfl
  | entry e =>
    by_cases hf : e.flags.isEmpty = true
    · simp [injectDefaults, hf, Line.modified]
    · simp only [injectDefaults, hf, Bool.false_eq_true, if_neg, not_false_eq_true]
      exact h

lemma modified_mem_parseLines (ls : List String) :
    ∀ i, ∀ l ∈ parseLines i ls, Line.modified l = false := by
  induction ls with
  | nil => intro i l2 hl2; exact absurd hl2 (List.not_mem_nil l2)
  | cons x xs ih =>
    intro i l2 hl2
    rcases List.mem_cons.mp hl2 with h | h
    · rw [h]; exact modified_parseLine i x
    · exact ih (i + 1) l2 h

/-- C4: loading the keyword store injects, into every record with zero
flags, exactly one '~'-prefixed no-modifier flag per accepted-keywords
token whose first character is neither '~' nor '-', and resets the
record's dirty bit, so the files of a freshly loaded keyword store are all
clean and a subsequent write performs no file-system write; a freshly
loaded base file is clean to begin with. -/
theorem keyword_defaults_injected_not_dirty (ak : String) (s : PackageFileSet)
    (hclean : ∀ f ∈ s.files, PackageFile.modified f = false) :
    (∀ f ∈ (PackageKeywordsFileSet.read ak s).files,
      PackageFile.modified f = false ∧ f.writeOutput = none) ∧
    (∀ (path : String) (ls : List String),
      PackageFile.modified (PackageFile.load path ls) = false) ∧
    (∀ e : PackageEntry, e.flags = [] →
      injectDefaults (defaultKeywords ak) (Line.entry e) =
        Line.entry { e with flags := defaultKeywordFlags ak, modified := false }) := by
  refine ⟨?_, ?_, ?_⟩
  · intro f2 hf2
    simp only [PackageKeywordsFileSet.read, List.mem_map] at hf2
    obtain ⟨f, hf, rfl⟩ := hf2
    have hmod := hclean f hf
    rw [PackageFile.modified, Bool.or_eq_false_iff] at hmod
    have hmod2 : PackageFile.modified (injectFile (defaultKeywords ak) f) = false := by
      rw [PackageFile.modified, Bool.or_eq_false_iff]
      refine ⟨hmod.1, ?_⟩
      rw [List.any_eq_false]
      intro l hl
      simp only [injectFile, List.mem_map] at hl
      obtain ⟨l0, hl0, rfl⟩ := hl
      have : Line.modified l0 = false := by
        have := hmod.2
        rw [List.any_eq_false] at this
        exact Bool.eq_false_iff.mpr (this l0 hl0)
      rw [modified_injectDefaults (defaultKeywords ak) l0 this]
      exact Bool.false_ne_true
    refine ⟨hmod2, ?_⟩
    simp [PackageFile.writeOutput, hmod2]
  · intro path ls
    rw [PackageFile.modified, Bool.or_eq_false_iff]
    refine ⟨rfl, ?_⟩
    rw [List.any_eq_false]
    intro l hl
    rw [modified_mem_parseLines ls 0 l hl]
    exact Bool.false_ne_true
  · intro e he
    simp only [injectDefaults, he, List.isEmpty_nil, if_pos, map_ofString_defaultKeywords]

/-- Witness for C4: a keyword store loaded from one flagless record plus a
comment, with accepted keywords containing stable, testing-marked and
excluded tokens, is clean, does not write, and the record receives exactly
the testing variants of the stable tokens. -/
theorem keyword_defaults_injected_not_dirty_witness :
    (PackageFile.modified (injectFile (defaultKeywords "amd64 ~x86 -foo arm")
        (PackageFile.load "package.keywords" ["cat/pkg\n", "# c\n"])) = false ∧
      (injectFile (defaultKeywords "amd64 ~x86 -foo arm")
        (PackageFile.load "package.keywords" ["cat/pkg\n", "# c\n"])).writeOutput = none) ∧
    injectDefaults (defaultKeywords "amd64 ~x86 -foo arm") (Line.entry wCleanEmpty) =
      Line.entry { wCleanEmpty with
                   flags := defaultKeywordFlags "amd64 ~x86 -foo arm", modified := false } := by
  constructor
  · exact (keyword_defaults_injected_not_dirty "amd64 ~x86 -foo arm"
      ⟨[PackageFile.load "package.keywords" ["cat/pkg\n", "# c\n"]]⟩ (by decide)).1
      (injectFile (defaultKeywords "amd64 ~x86 -foo arm")
        (PackageFile.load "package.keywords" ["cat/pkg\n", "# c\n"]))
      (by simp [PackageKeywordsFileSet.read])
  · exact (keyword_defaults_injected_not_dirty "amd64 ~x86 -foo arm"
      ⟨[]⟩ (by simp)).2.2 wCleanEmpty rfl

/-- The catalog adapter consumed by the caches (`cache.py`): `xmatch`
returns every version matching a package expression (match-all), `aux_get`
the raw attribute string of one version for the cache's `aux_key`, and
`best` the highest-priority version of a nonempty list. -/
structure DBAPI where
  xmatch : String → List String
  aux_get : String → String
  best : List String → String

/-- The base `DBAPICache._aux_parse`: whitespace-split the raw value. -/
def aux_parse (arg : String) : List String := pySplit arg

/-- The loop of `DBAPICache.__getitem__`: union the parsed attribute
tokens over every matching version. -/
def computePossible (d : DBAPI) (k : String) : Finset String :=
  (d.xmatch k).foldl (fun acc p => acc ∪ (aux_parse (d.aux_get p)).toFinset) ∅

/-- A `DBAPICache` instance: the adapter and the two memoization maps
(`self.cache` and `self.effective_cache`). -/
structure DBAPICache where
  dbapi : DBAPI
  cache : List (String × Finset String)
  effective_cache : List (String × Finset String)

/-- `DBAPICache.__getitem__`: on a miss, compute the union over all
matching versions and memoize it; on a hit, return the memoized set with
the state untouched. -/
def DBAPICache.getItem (st : DBAPICache) (k : String) : Finset String × DBAPICache :=
  match st.cache.lookup k with
  | some v => (v, st)
  | none =>
    let v := computePossible st.dbapi k
    (v, { st with cache := (k, v) :: st.cache })

/-- `DBAPICache.get_effective`: on a miss, parse the attributes of the
single best matching version (the empty set when nothing matches) and
memoize it. -/
def DBAPICache.get_effective (st : DBAPICache) (k : String) :
    Finset String × DBAPICache :=
  match st.effective_cache.lookup k with
  | some v => (v, st)
  | none =>
    let pkgs := st.dbapi.xmatch k
    let v := if pkgs.isEmpty then ∅
      else (aux_parse (st.dbapi.aux_get (st.dbapi.best pkgs))).toFinset
    (v, { st with effective_cache := (k, v) :: st.effective_cache })

lemma mem_foldl_union (f : String → Finset String) (t : String) :
    ∀ (ps : List String) (acc : Finset String),
      (t ∈ ps.foldl (fun acc p => acc ∪ f p) acc) ↔ (t ∈ acc ∨ ∃ p ∈ ps, t ∈ f p) := by
  intro ps
  induction ps with
  | nil => intro acc; simp
  | cons p ps ih =>
    intro acc
    rw [List.foldl_cons, ih]
    simp only [Finset.mem_union, List.exists_mem_cons_iff]
    tauto

lemma mem_computePossible (d : DBAPI) (k t : String) :
    t ∈ computePossible d k ↔ ∃ p ∈ d.xmatch k, t ∈ aux_parse (d.aux_get p) := by
  unfold computePossible
  rw [mem_foldl_union]
  simp [List.mem_toFinset]

/-- C6: on a fresh query, the possible-set is exactly the union of the
parsed attribute tokens over every catalog version matching the expression
— in particular it contains any token occurring in any single matching
version's attributes — while the effective-set consults the single best
matching version only and is empty when no version matches. -/
theorem possible_is_union_over_matches (st : DBAPICache) (k p tok : String)
    (hc : st.cache.lookup k = none)
    (hp : p ∈ st.dbapi.xmatch k) (ht : tok ∈ aux_parse (st.dbapi.aux_get p)) :
    tok ∈ (st.getItem k).1 ∧
    (∀ t, t ∈ (st.getItem k).1 ↔
      ∃ q ∈ st.dbapi.xmatch k, t ∈ aux_parse (st.dbapi.aux_get q)) ∧
    (st.effective_cache.lookup k = none → st.dbapi.xmatch k ≠ [] →
      (st.get_effective k).1 =
        (aux_parse (st.dbapi.aux_get (st.dbapi.best (st.dbapi.xmatch k)))).toFinset) ∧
    (st.effective_cache.lookup k = none → st.dbapi.xmatch k = [] →
      (st.get_effective k).1 = ∅) := by
  have hval : (st.getItem k).1 = computePossible st.dbapi k := by
    unfold DBAPICache.getItem
    rw [hc]
  refine ⟨?_, ?_, ?_, ?_⟩
  · rw [hval, mem_computePossible]
    exact ⟨p, hp, ht⟩
  · intro t
    rw [hval, mem_computePossible]
  · intro he hne
    unfold DBAPICache.get_effective
    rw [he]
    simp only [List.isEmpty_eq_true, hne, if_neg, not_false_eq_true]
  · intro he hnil
    unfold DBAPICache.get_effective
    rw [he]
    simp [hnil]

/-- A concrete catalog with two matching versions: v1 declares foo, v2
(the best) declares bar. -/
def wDbapi : DBAPI :=
  { xmatch := fun _ => ["v1", "v2"],
    aux_get := fun p => if p == "v1" then "foo" else "bar",
    best := fun _ => "v2" }

/-- A fresh cache over `wDbapi`. -/
def wCacheState : DBAPICache := { dbapi := wDbapi, cache := [], effective_cache := [] }

/-- Witness for C6: foo is possible for the expression (it occurs in
version v1's attributes) even though the effective set, computed from the
best version v2 only, does not contain it. -/
theorem possible_is_union_over_matches_witness :
    "foo" ∈ (wCacheState.getItem "cat/pkg").1 ∧
    "foo" ∉ (wCacheState.get_effective "cat/pkg").1 :=
  ⟨(possible_is_union_over_matches wCacheState "cat/pkg" "v1" "foo" rfl (by decide)
      (by decide)).1,
   by decide⟩

/-- C7: each cache query memoizes its result under the queried key, and a
repeated query for that key returns the very same memoized set with the
state unchanged — even if the catalog adapter is replaced in between, so
later catalog mutation is never observed — for both the possible-cache and
the effective-cache. -/
theorem cache_memoized_never_recomputed (st : DBAPICache) (k : String) (d2 : DBAPI) :
    ((st.getItem k).2.cache.lookup k = some (st.getItem k).1) ∧
    (DBAPICache.getItem { (st.getItem k).2 with dbapi := d2 } k =
      ((st.getItem k).1, { (st.getItem k).2 with dbapi := d2 })) ∧
    ((st.get_effective k).2.effective_cache.lookup k = some (st.get_effective k).1) ∧
    (DBAPICache.get_effective { (st.get_effective k).2 with dbapi := d2 } k =
      ((st.get_effective k).1, { (st.get_effective k).2 with dbapi := d2 })) := by
  have hg : ∀ (st2 : DBAPICache) (v : Finset String),
      st2.cache.lookup k = some v → DBAPICache.getItem st2 k = (v, st2) := by
    intro st2 v hv
    unfold DBAPICache.getItem
    rw [hv]
  have hge : ∀ (st2 : DBAPICache) (v : Finset String),
      st2.effective_cache.lookup k = some v → DBAPICache.get_effective st2 k = (v, st2) := by
    intro st2 v hv
    unfold DBAPICache.get_effective
    rw [hv]
  have h1 : (st.getItem k).2.cache.lookup k = some (st.getItem k).1 := by
    unfold DBAPICache.getItem
    cases hc : st.cache.lookup k with
    | some v => exact hc
    | none => simp [List.lookup]
  have h3 : (st.get_effective k).2.effective_cache.lookup k = some (st.get_effective k).1 := by
    unfold DBAPICache.get_effective
    cases hc : st.effective_cache.lookup k with
    | some v => exact hc
    | none => simp [List.lookup]
  exact ⟨h1, hg _ _ h1, h3, hge _ _ h3⟩
